import Mathlib

/-!
Shallow embedding of the proof/inference engine of the `propositionalcalculus`
repository (files `formula.py`, `rule.py`, `inference.py`, `hilbert_system.py`)
and proofs of the claims C1-C10 about it.

Modelling conventions:
* Python `Formula` objects are the inductive `Formula` below.  The source
  compares formulas by their canonical string rendering, which is injective
  on the tree structure, so structural equality is used here.
* Python `dict[Var, Formula]` bindings are association lists with unique keys;
  insertion keeps the original position of an existing key, as Python does.
* Python `set` values are lists compared by mutual membership (`same_set`).
* Python functions that can raise (IndexError, KeyError, AssertionError,
  ValueError, AttributeError) are embedded as `Option`-returning functions
  where `none` covers both a `None` result and an exception; each place where
  `none` stands for an exception is commented.
* The two unbounded recursions of the source (`Proof.step_dependencies` and
  `assumption_to_implication`) and the BFS loop receive an explicit fuel
  argument so that the definitions stay structurally recursive and kernel
  computable; fuel exhaustion models Python's RecursionError.
-/

namespace PropCalc

/-- Formulas, from `formula.py`: leaves `Var` and `Const` (TRUE/FALSE), the
unary operator `Neg` and the binary operators `And`, `Or`, `Imp`. -/
inductive Formula where
  | var (name : String)
  | const (b : Bool)
  | neg (f : Formula)
  | and (left right : Formula)
  | or (left right : Formula)
  | imp (left right : Formula)
deriving DecidableEq

/-- `Formula.vars` of the source returns the set of variables of a formula;
here the set is a list read up to membership. -/
def Formula.vars : Formula → List String
  | .var n => [n]
  | .const _ => []
  | .neg f => f.vars
  | .and l r => l.vars ++ r.vars
  | .or l r => l.vars ++ r.vars
  | .imp l r => l.vars ++ r.vars

/-- A binding (`Binding = dict[Var, Formula]` in `formula.py`): an association
list with unique keys, in insertion order. -/
abbrev Binding := List (String × Formula)

/-- Python `binding[v]` / `v in binding`: first (= only) entry for `v`. -/
def binding_get : Binding → String → Option Formula
  | [], _ => none
  | (w, f) :: rest, v => if w = v then some f else binding_get rest v

/-- Python `binding[v] = f`: replaces the value in place when the key exists,
appends the pair otherwise. -/
def binding_set : Binding → String → Formula → Binding
  | [], v, f => [(v, f)]
  | (w, g) :: rest, v, f =>
    if w = v then (w, f) :: rest else (w, g) :: binding_set rest v f

/-- Python `binding.keys()`. -/
def binding_keys (b : Binding) : List String := b.map (·.1)

/-- Python set equality, for values kept as lists: mutual membership. -/
def same_set [DecidableEq α] (xs ys : List α) : Bool :=
  xs.all (fun x => decide (x ∈ ys)) && ys.all (fun y => decide (y ∈ xs))

/-- Python `a | b` on dicts: `a`'s keys in order (with `b`'s value where `b`
also has the key), then `b`'s remaining keys in order. -/
def dict_union (a b : Binding) : Binding :=
  a.map (fun p => (p.1, (binding_get b p.1).getD p.2))
    ++ b.filter (fun q => (binding_get a q.1).isNone)

/-- `merge_bindings` from `formula.py`: `None` when the two bindings disagree
on a common key, `a | b` otherwise. -/
def merge_bindings (a b : Binding) : Option Binding :=
  if a.all (fun p => match binding_get b p.1 with
      | none => true
      | some g => decide (g = p.2)) then
    some (dict_union a b)
  else
    none

/-- `Formula.subs` from `formula.py`: substitutes bound variables, leaves the
rest unchanged. -/
def Formula.subs : Formula → Binding → Formula
  | .var n, b => (binding_get b n).getD (.var n)
  | .const c, _ => .const c
  | .neg f, b => .neg (f.subs b)
  | .and l r, b => .and (l.subs b) (r.subs b)
  | .or l r, b => .or (l.subs b) (r.subs b)
  | .imp l r, b => .imp (l.subs b) (r.subs b)

/-- Number of nodes of a formula (`Formula.__len__`); bounds the BFS loop. -/
def Formula.size : Formula → Nat
  | .var _ => 1
  | .const _ => 1
  | .neg f => 1 + f.size
  | .and l r => 1 + l.size + r.size
  | .or l r => 1 + l.size + r.size
  | .imp l r => 1 + l.size + r.size

/-- The children pushed on the BFS queue by `traverse_breadth`: left before
right, so that the left child is popped first. -/
def Formula.children : Formula → List Formula
  | .var _ => []
  | .const _ => []
  | .neg f => [f]
  | .and l r => [l, r]
  | .or l r => [l, r]
  | .imp l r => [l, r]

/-- `OrderType` from `formula.py`. -/
inductive OrderType where
  | preorder
  | breadth_first
deriving DecidableEq

/-- `Formula.traverse_preorder`: the node, then the left subtree, then the
right subtree. -/
def Formula.traverse_preorder : Formula → List Formula
  | .var n => [.var n]
  | .const b => [.const b]
  | .neg f => .neg f :: f.traverse_preorder
  | .and l r => .and l r :: (l.traverse_preorder ++ r.traverse_preorder)
  | .or l r => .or l r :: (l.traverse_preorder ++ r.traverse_preorder)
  | .imp l r => .imp l r :: (l.traverse_preorder ++ r.traverse_preorder)

/-- The FIFO loop of `Formula.traverse_breadth` (pop one node, yield it, queue
its children).  The fuel only bounds the loop so that the definition is
structural; the loop of the source visits each node of the queue's trees once,
so `traverse_breadth` below passes fuel `size`, which is exact. -/
def breadth_loop : Nat → List Formula → List Formula
  | 0, _ => []
  | _ + 1, [] => []
  | fuel + 1, v :: rest => v :: breadth_loop fuel (rest ++ v.children)

/-- `Formula.traverse_breadth`: breadth first, left to right. -/
def Formula.traverse_breadth (f : Formula) : List Formula :=
  breadth_loop f.size [f]

/-- `Formula.traverse` from `formula.py`. -/
def Formula.traverse (f : Formula) : OrderType → List Formula
  | .preorder => f.traverse_preorder
  | .breadth_first => f.traverse_breadth

/-- `_match_inner` of `pattern_match` (`rule.py`): structural comparison of a
pattern and a value, threading the accumulated binding.  The source mutates
the binding dict and returns a bool; here the updated binding is returned,
`none` for `False`. -/
def match_inner : Formula → Formula → Binding → Option Binding
  | .var v, value, b =>
      match binding_get b v with
      | none => some (binding_set b v value)
      | some f => if f = value then some b else none
  | .const true, .const true, b => some b
  | .const false, .const false, b => some b
  | .neg a, .neg c, b => match_inner a c b
  | .and a₁ a₂, .and c₁ c₂, b =>
      (match_inner a₁ c₁ b).bind (match_inner a₂ c₂)
  | .or a₁ a₂, .or c₁ c₂, b =>
      (match_inner a₁ c₁ b).bind (match_inner a₂ c₂)
  | .imp a₁ a₂, .imp c₁ c₂, b =>
      (match_inner a₁ c₁ b).bind (match_inner a₂ c₂)
  | _, _, _ => none

/-- `pattern_match` from `rule.py`: one entry per subformula position of the
subject, visited in the given order, each computed with a fresh binding. -/
def pattern_match (pattern subject : Formula)
    (traverse_order : OrderType := .breadth_first) : List (Option Binding) :=
  (subject.traverse traverse_order).map (fun sub => match_inner pattern sub [])

/-- `InferenceRule` from `inference.py`: a name, assumption patterns and a
conclusion pattern.  The source compares rules by name, assumptions and
conclusion, which is structural equality here. -/
structure InferenceRule where
  name : String
  assumptions : List Formula
  conclusion : Formula
deriving DecidableEq

/-- `InferenceRule.arity`. -/
def InferenceRule.arity (r : InferenceRule) : Nat := r.assumptions.length

/-- `InferenceRule.assumptions_vars`: union of the variables of the
assumption patterns (a Python set, kept as a list up to membership). -/
def InferenceRule.assumptions_vars (r : InferenceRule) : List String :=
  (r.assumptions.map Formula.vars).foldr (· ++ ·) []

/-- `InferenceRule.conclusion_vars`. -/
def InferenceRule.conclusion_vars (r : InferenceRule) : List String :=
  r.conclusion.vars

/-- The per-assumption loop of `InferenceRule.apply`: for each pair, take the
first entry of `pattern_match` (the match at the whole-formula position),
fail on a match failure, merge into the running global binding, fail on a
merge conflict. -/
def apply_loop : List Formula → List Formula → Binding → Option Binding
  | [], _, gb => some gb
  | _, [], gb => some gb
  | gen :: gens, spec :: specs, gb =>
    match (pattern_match gen spec .breadth_first).head? with
    | none => none
    | some none => none
    | some (some b) =>
      match merge_bindings gb b with
      | none => none
      | some gb' => apply_loop gens specs gb'

/-- `InferenceRule.apply` from `inference.py`: `none` on an arity mismatch,
`none` when the conclusion variables missing from every assumption pattern
are not exactly the keys of `conclusion_binding`, otherwise the loop above
followed by substitution into the conclusion pattern. -/
def InferenceRule.apply (r : InferenceRule) (assumptions : List Formula)
    (conclusion_binding : Binding := []) : Option Formula :=
  if r.assumptions.length ≠ assumptions.length then none
  else if ¬ same_set
      (r.conclusion_vars.filter (fun v => ¬ v ∈ r.assumptions_vars))
      (binding_keys conclusion_binding) = true then none
  else (apply_loop r.assumptions assumptions conclusion_binding).map
    (r.conclusion.subs ·)

/-- `ProofStep` from `inference.py`: `AssumptionInclusion`,
`AxiomSpecialization` and `RuleApplication` (indices are Python ints). -/
inductive ProofStep where
  | ass (index : Int)
  | axS (axiom_index : Int) (binding : Binding)
  | ruleApp (rule : InferenceRule) (assumption_indices : List Int)
deriving DecidableEq

/-- Python list indexing `l[i]`: nonnegative indices from the front, negative
indices from the end; `none` models IndexError. -/
def python_get (l : List α) (i : Int) : Option α :=
  if 0 ≤ i then l.get? i.toNat
  else if 0 ≤ i + l.length then l.get? (i + (l.length : Int)).toNat
  else none

/-- Maps a fallible function over a list, `none` as soon as one element
fails (the shape of every loop of the source that can raise or return
`None` per element). -/
def option_map_list (f : α → Option β) : List α → Option (List β)
  | [] => some []
  | a :: l =>
    match f a with
    | none => none
    | some b => (option_map_list f l).map (b :: ·)

/-- `AssumptionInclusion.apply`: the indexed assumption when the index is in
range, `None` otherwise (the source checks `0 <= index < len` itself, so a
negative index is rejected here, unlike in `RuleApplication.apply`). -/
def assumption_inclusion_apply (index : Int) (assumptions : List Formula) :
    Option Formula :=
  if 0 ≤ index ∧ index < assumptions.length then assumptions.get? index.toNat
  else none

/-- `AxiomSpecialization.apply`: the indexed axiom substituted, provided the
binding keys are exactly the axiom's variables. -/
def axiom_specialization_apply (axiom_index : Int) (binding : Binding)
    (axioms : List Formula) : Option Formula :=
  if 0 ≤ axiom_index ∧ axiom_index < axioms.length then
    match axioms.get? axiom_index.toNat with
    | some ax =>
      if same_set (binding_keys binding) ax.vars then some (ax.subs binding)
      else none
    | none => none
  else none

/-- `RuleApplication.apply`: `None` when some premise index `i` has
`i + 1 > len(state)`; otherwise the premises are read with Python list
indexing (so a negative index counts from the end of `state`; an index below
`-len(state)` raises IndexError, modelled as `none`) and the rule is applied
to them. -/
def rule_application_apply (rule : InferenceRule) (assumption_indices : List Int)
    (state : List Formula) : Option Formula :=
  if assumption_indices.any (fun i => decide (i + 1 > state.length)) then none
  else
    match option_map_list (python_get state) assumption_indices with
    | none => none
    | some premises => rule.apply premises []

/-- `Proof` from `inference.py` (the raw record; the constructor's assertions
live in `mk_proof`).  The source keeps `rules` as a Python set, modelled as a
list up to membership. -/
structure Proof where
  rules : List InferenceRule
  axioms : List Formula
  assumptions : List Formula
  conclusion : Formula
  steps : List ProofStep
deriving DecidableEq

/-- The third assertion of `Proof.__init__`: a `RuleApplication` step may only
use a rule of the proof's rule set. -/
def ProofStep.rule_ok (rules : List InferenceRule) : ProofStep → Bool
  | .ruleApp r _ => decide (r ∈ rules)
  | _ => true

/-- `Proof.__init__` with its three assertions: a positive number of steps, no
repeated assumptions (`len(assumptions) == len(set(assumptions))`), and every
`RuleApplication` rule in the rule set; `none` models AssertionError. -/
def mk_proof (rules : List InferenceRule) (axioms assumptions : List Formula)
    (conclusion : Formula) (steps : List ProofStep) : Option Proof :=
  if 0 < steps.length ∧ assumptions.Nodup ∧
      ∀ s ∈ steps, ProofStep.rule_ok rules s = true then
    some ⟨rules, axioms, assumptions, conclusion, steps⟩
  else none

/-- One step interpreted against the fixed assumption/axiom lists and the
formulas derived so far (`state` holds only the successful earlier entries,
exactly what the source's list holds when a step runs). -/
def step_apply (assumptions axioms : List Formula) (state : List Formula) :
    ProofStep → Option Formula
  | .ass i => assumption_inclusion_apply i assumptions
  | .axS i b => axiom_specialization_apply i b axioms
  | .ruleApp r idcs => rule_application_apply r idcs state

/-- The loop of `Proof.state`: apply each step in order, append the result,
stop right after the first step that yields `None`. -/
def state_loop (assumptions axioms : List Formula) :
    List ProofStep → List Formula → List (Option Formula)
  | [], _ => []
  | s :: rest, acc =>
    match step_apply assumptions axioms acc s with
    | none => [none]
    | some f => some f :: state_loop assumptions axioms rest (acc ++ [f])

/-- `Proof.state` from `inference.py`. -/
def Proof.state (p : Proof) : List (Option Formula) :=
  state_loop p.assumptions p.axioms p.steps []

/-- `Proof.check`: `state[-1] == conclusion`.  A `None` last entry compares
unequal to any formula; an empty state (impossible for proofs built by
`mk_proof`, see C10) would raise in Python and is `false` here. -/
def Proof.check (p : Proof) : Bool :=
  decide (p.state.getLast? = some (some p.conclusion))

/-- `Proof.used_assumptions`: for every `AssumptionInclusion` step whose
`apply` yields a formula, that formula, in step order. -/
def Proof.used_assumptions (p : Proof) : List Formula :=
  p.steps.filterMap (fun s =>
    match s with
    | .ass i => assumption_inclusion_apply i p.assumptions
    | _ => none)

/-- `Proof.superflous_assumption` (sic): absence from `used_assumptions`. -/
def Proof.superflous_assumption (p : Proof) (assumption : Formula) : Bool :=
  decide (¬ assumption ∈ p.used_assumptions)

/-- Insertion of an integer into a sorted list. -/
def int_insert (x : Int) : List Int → List Int
  | [] => [x]
  | y :: rest => if x ≤ y then x :: y :: rest else y :: int_insert x rest

/-- Insertion sort on integers (`steps_indices.sort()` of the source). -/
def int_sort : List Int → List Int
  | [] => []
  | x :: rest => int_insert x (int_sort rest)

/-- Lookup in an association list with integer keys (a Python dict). -/
def alist_get : List (Int × Int) → Int → Option Int
  | [], _ => none
  | (k', v) :: rest, k => if k' = k then some v else alist_get rest k

/-- Python dict assignment `d[k] = v` for integer keys. -/
def alist_set : List (Int × Int) → Int → Int → List (Int × Int)
  | [], k, v => [(k, v)]
  | (k', v') :: rest, k, v =>
    if k' = k then (k', v) :: rest else (k', v') :: alist_set rest k v

/-- `Proof.step_dependencies`: transitive closure of `RuleApplication`
premise indices.  Python returns a set; its only consumer sorts it, so the
set is kept as a sorted duplicate-free list.  `none` models IndexError on
`steps[index]`, the TypeError `reduce` raises on a premise-less rule
application, and RecursionError when the fuel runs out (the caller passes
`len(steps) + 1`, enough for every backward-referencing proof). -/
def step_dependencies_loop (steps : List ProofStep) : Nat → Int → Option (List Int)
  | 0, _ => none
  | fuel + 1, index =>
    match python_get steps index with
    | none => none
    | some (.ruleApp _ indices) =>
      match indices with
      | [] => none
      | _ =>
        match option_map_list (step_dependencies_loop steps fuel) indices with
        | none => none
        | some deps =>
          some ((int_sort (deps.foldr (· ++ ·) [] ++ indices)).dedup)
    | some _ => some []

/-- `Proof.step_dependencies` at the proof's own steps. -/
def Proof.step_dependencies (p : Proof) (index : Int) : Option (List Int) :=
  step_dependencies_loop p.steps (p.steps.length + 1) index

/-- The reindexing loop of `Proof.step_subproof`, carrying the new index, the
assumption accumulator, `assumptions_reindex`, the step accumulator and
`steps_reindex`.  In the `delete_superflous_assumptions` branch the source
appends `self.assumptions[i]` before checking whether `i` was already
remapped, exactly as reproduced here. -/
def subproof_loop (p : Proof) (delete_superflous : Bool) :
    List Int → Int → List Formula → List (Int × Int) → List ProofStep →
    List (Int × Int) → Option (List Formula × List ProofStep)
  | [], _, assumptions, _, steps, _ => some (assumptions, steps)
  | i_old :: rest, i_new, assumptions, ass_reindex, steps, steps_reindex =>
    let steps_reindex := alist_set steps_reindex i_old i_new
    match python_get p.steps i_old with
    | none => none
    | some (.ass i) =>
      if delete_superflous then
        match python_get p.assumptions i with
        | none => none
        | some a =>
          let assumptions := assumptions ++ [a]
          let ass_reindex :=
            if (alist_get ass_reindex i).isSome then ass_reindex
            else alist_set ass_reindex i ((assumptions.length : Int) - 1)
          match alist_get ass_reindex i with
          | none => none
          | some j =>
            subproof_loop p delete_superflous rest (i_new + 1) assumptions
              ass_reindex (steps ++ [.ass j]) steps_reindex
      else
        subproof_loop p delete_superflous rest (i_new + 1) assumptions
          ass_reindex (steps ++ [.ass i]) steps_reindex
    | some (.axS j b) =>
      subproof_loop p delete_superflous rest (i_new + 1) assumptions
        ass_reindex (steps ++ [.axS j b]) steps_reindex
    | some (.ruleApp r idcs) =>
      match option_map_list (alist_get steps_reindex) idcs with
      | none => none
      | some new_idcs =>
        subproof_loop p delete_superflous rest (i_new + 1) assumptions
          ass_reindex (steps ++ [.ruleApp r new_idcs]) steps_reindex

/-- `Proof.step_subproof`: the sub-derivation of `state[index]` over the
dependency-closed, sorted, reindexed steps, rebuilt through the constructor
(`mk_proof`), whose assertions can fail. -/
def Proof.step_subproof (p : Proof) (index : Int)
    (delete_superflous_assumptions : Bool := false) : Option Proof := do
  let entry ← python_get p.state index
  let new_conclusion ← entry
  let deps ← p.step_dependencies index
  let steps_indices := int_sort (deps ++ [index])
  let init_assumptions :=
    if delete_superflous_assumptions then [] else p.assumptions
  let (assumptions, steps) ←
    subproof_loop p delete_superflous_assumptions steps_indices 0
      init_assumptions [] [] []
  mk_proof p.rules p.axioms assumptions new_conclusion steps

/-- `Proof.delete_superflous_assumptions`. -/
def Proof.delete_superflous_assumptions (p : Proof) : Option Proof :=
  p.step_subproof ((p.steps.length : Int) - 1) true

/-- Python `list.index`: position of the first occurrence (callers guard
membership, as the source does; `list.index` on a missing element raises). -/
def list_index [DecidableEq α] : List α → α → Nat
  | [], _ => 0
  | x :: rest, a => if x = a then 0 else 1 + list_index rest a

/-- The assumption-mixing loop of `proof_mixer`, over `proof2.assumptions`
with the enumeration counter: an assumption already present is remapped to
its first index, a new one is appended. -/
def mix_assumptions_loop :
    List Formula → List Formula → List (Int × Int) → Int →
    List Formula × List (Int × Int)
  | [], acc, reindex, _ => (acc, reindex)
  | a :: rest, acc, reindex, i =>
    if a ∈ acc then
      mix_assumptions_loop rest acc
        (alist_set reindex i (list_index acc a : Int)) (i + 1)
    else
      mix_assumptions_loop rest (acc ++ [a])
        (alist_set reindex i (acc.length : Int)) (i + 1)

/-- How `proof_mixer` rewrites one `proof2` step: `AssumptionInclusion`
indices go through the remap dict (a missing key raises KeyError, `none`
here), `RuleApplication` indices are padded by `len(proof1.steps)`
(`RuleApplication.pad`), axiom steps pass unchanged. -/
def mixer_step (reindex : List (Int × Int)) (pad : Nat) :
    ProofStep → Option ProofStep
  | ProofStep.ass i => (alist_get reindex i).map ProofStep.ass
  | ProofStep.ruleApp r idcs =>
    some (ProofStep.ruleApp r (idcs.map (· + (pad : Int))))
  | s => some s

/-- `proof_mixer` from `inference.py`: asserts equal axiom lists and rule
sets (`none` models the AssertionError), merges the assumption lists, and
appends `proof2`'s rewritten steps after `proof1`'s. -/
def proof_mixer (proof1 proof2 : Proof) :
    Option (List Formula × List ProofStep) :=
  if proof1.axioms = proof2.axioms ∧ same_set proof1.rules proof2.rules = true then
    let mixed := mix_assumptions_loop proof2.assumptions proof1.assumptions [] 0
    match option_map_list (mixer_step mixed.2 proof1.steps.length) proof2.steps with
    | none => none
    | some steps2 => some (mixed.1, proof1.steps ++ steps2)
  else none

/-- The variables `A`, `B`, `C` of `hilbert_system.py`. -/
def vA : Formula := .var "A"

def vB : Formula := .var "B"

def vC : Formula := .var "C"

/-- `PCProof.MP`: modus ponens. -/
def mp_rule : InferenceRule := ⟨"MP", [vA, .imp vA vB], vB⟩

/-- `PCProof.axioms`: the three Hilbert axioms of `hilbert_system.py`. -/
def pc_axioms : List Formula :=
  [.imp vB (.imp vA vB),
   .imp (.imp vA (.imp vB vC)) (.imp (.imp vA vB) (.imp vA vC)),
   .imp (.imp (.neg vB) (.neg vA)) (.imp (.imp (.neg vB) vA) vB)]

/-- `PCProof.__init__`: the generic constructor over `{MP}` and the three
axioms. -/
def mk_pcproof (assumptions : List Formula) (conclusion : Formula)
    (steps : List ProofStep) : Option Proof :=
  mk_proof [mp_rule] pc_axioms assumptions conclusion steps

/-- `PCProof.from_proof`: asserts the rule set is `{MP}` and the axiom list
is the Hilbert one, then rebuilds through the constructor. -/
def pcproof_from_proof (p : Proof) : Option Proof :=
  if same_set p.rules [mp_rule] = true ∧ p.axioms = pc_axioms then
    mk_pcproof p.assumptions p.conclusion p.steps
  else none

/-- `assumption_to_implication_case` from `hilbert_system.py`: 1 when the
assumption is superfluous, 2 when the conclusion is `X → assumption`, else 3
provided the last step is a modus-ponens application (`none` models the
AssertionError there, and the IndexError of `steps[-1]` on no steps). -/
def assumption_to_implication_case (p : Proof) (assumption : Formula) :
    Option Nat :=
  if p.superflous_assumption assumption then some 1
  else
    match p.conclusion with
    | .imp _ r =>
      if r = assumption then some 2
      else
        match p.steps.getLast? with
        | some (.ruleApp rl _) => if rl = mp_rule then some 3 else none
        | _ => none
    | _ =>
      match p.steps.getLast? with
      | some (.ruleApp rl _) => if rl = mp_rule then some 3 else none
      | _ => none

/-- `assumption_to_implication` from `hilbert_system.py`, with fuel for the
structural recursion of case 3 (fuel exhaustion models RecursionError; any
fuel above the recursion depth gives the function's value).  Case 1 of the
source rebuilds the proof without superfluous assumptions, appends the
axiom-1 specialization, and then reads `proof.ssssteps` (line 69), an
attribute the `Proof` class does not define: the branch unconditionally
raises AttributeError, so it is `none` here. -/
def assumption_to_implication : Nat → Proof → Formula → Option Proof
  | 0, _, _ => none
  | fuel + 1, proof, assumption =>
    match assumption_to_implication_case proof assumption with
    | some 1 => none
    | some 2 =>
      match proof.conclusion with
      | .imp left right =>
        if right = assumption then
          if assumption ∈ proof.assumptions then
            mk_pcproof (proof.assumptions.erase assumption)
              (.imp assumption proof.conclusion)
              [.axS 0 [("A", left), ("B", assumption)]]
          else none
        else none
      | _ => none
    | some 3 => do
      let last ← proof.steps.getLast?
      match last with
      | .ruleApp r idcs =>
        if r = mp_rule then
          match idcs with
          | [i1, i2] => do
            let sp1 ← proof.step_subproof i1 false
            let sp1 ← pcproof_from_proof sp1
            let p1 ← assumption_to_implication fuel sp1 assumption
            let sp2 ← proof.step_subproof i2 false
            let sp2 ← pcproof_from_proof sp2
            let p2 ← assumption_to_implication fuel sp2 assumption
            let mixed ← proof_mixer p1 p2
            let assumptions := mixed.1
            match p1.conclusion with
            | .imp _ b =>
              let steps := mixed.2 ++
                [.axS 1 [("A", assumption), ("B", b), ("C", proof.conclusion)]]
              let proof_len : Int := assumptions.length + steps.length
              let steps := steps ++ [.ruleApp mp_rule [proof_len - 2, proof_len - 1]]
              let steps := steps ++ [.ruleApp mp_rule
                [(assumptions.length : Int) + (p1.steps.length : Int) - 1, proof_len]]
              mk_pcproof assumptions (.imp assumption proof.conclusion) steps
            | _ => none
          | _ => none
        else none
      | _ => none
    | _ => none

/-! ### Concrete instances used by witnesses, counterexamples and bug reports -/

/-- A conjunction-introduction rule (any rule set is allowed by `Proof`). -/
def ai_rule : InferenceRule := ⟨"AI", [vA, vB], .and vA vB⟩

/-- `A, A → B ⊢ B` in the Hilbert system: `[Ass 0, Ass 1, MP(0, 1)]`. -/
def cpMPp : Proof :=
  ⟨[mp_rule], pc_axioms, [vA, .imp vA vB], vB,
   [.ass 0, .ass 1, .ruleApp mp_rule [0, 1]]⟩

/-- `A, B ⊢ B` by including assumption 1: `A` is superfluous. -/
def cp1p : Proof := ⟨[mp_rule], pc_axioms, [vA, vB], vB, [.ass 1]⟩

/-- `A ⊢ A ∧ A`, including assumption 0 twice. -/
def cp6p : Proof :=
  ⟨[ai_rule], [], [vA], .and vA vA, [.ass 0, .ass 0, .ruleApp ai_rule [0, 1]]⟩

/-- `C ⊢ C`, over no axioms, for mixing. -/
def p1c5 : Proof := ⟨[mp_rule], [], [vC], vC, [.ass 0]⟩

/-- `A, A → B ⊢ B`, over no axioms, for mixing. -/
def p2c5 : Proof :=
  ⟨[mp_rule], [], [vA, .imp vA vB], vB, [.ass 0, .ass 1, .ruleApp mp_rule [0, 1]]⟩

/-- What `proof_mixer p1c5 p2c5` returns: the assumption union. -/
def mix5_assumptions : List Formula := [vC, vA, .imp vA vB]

/-- What `proof_mixer p1c5 p2c5` returns: the concatenated steps; the rule
application is padded by `len(p1c5.steps) = 1`. -/
def mix5_steps : List ProofStep :=
  [.ass 0, .ass 1, .ass 2, .ruleApp mp_rule [1, 2]]

/-! ### Helper lemmas -/

theorem option_map_list_length (f : α → Option β) :
    ∀ (l : List α) (l' : List β), option_map_list f l = some l' →
      l'.length = l.length := by
  intro l
  induction l with
  | nil =>
    intro l' h
    simp only [option_map_list] at h
    cases h
    rfl
  | cons a t ih =>
    intro l' h
    unfold option_map_list at h
    cases hfa : f a with
    | none => rw [hfa] at h; cases h
    | some b =>
      rw [hfa] at h
      cases hmt : option_map_list f t with
      | none => rw [hmt] at h; cases h
      | some bs =>
        rw [hmt] at h
        cases h
        simp [ih bs hmt]

theorem option_map_list_get (f : α → Option β) :
    ∀ (l : List α) (l' : List β) (k : Nat) (a : α),
      option_map_list f l = some l' → l.get? k = some a →
      ∃ b, f a = some b ∧ l'.get? k = some b := by
  intro l
  induction l with
  | nil => intro l' k a _ hk; cases hk
  | cons x t ih =>
    intro l' k a h hk
    unfold option_map_list at h
    cases hfa : f x with
    | none => rw [hfa] at h; cases h
    | some b =>
      rw [hfa] at h
      cases hmt : option_map_list f t with
      | none => rw [hmt] at h; cases h
      | some bs =>
        rw [hmt] at h
        cases h
        cases k with
        | zero => cases hk; exact ⟨b, hfa, rfl⟩
        | succ k' => exact ih bs k' a hmt hk

/-! ### C4: mixer step-count law -/

/-- C4: for proofs over identical axiom lists and rule sets, the step list
produced by `proof_mixer` has length `len(p1.steps) + len(p2.steps)`. -/
theorem mixer_step_count (p1 p2 : Proof) (as : List Formula)
    (ss : List ProofStep) (h : proof_mixer p1 p2 = some (as, ss)) :
    ss.length = p1.steps.length + p2.steps.length := by
  unfold proof_mixer at h
  split at h
  · dsimp only at h
    split at h
    · cases h
    · next steps2 heq =>
      cases h
      simp [option_map_list_length _ _ _ heq]
  · cases h

/-- Witness for C4 at the concrete pair `p1c5`, `p2c5`. -/
theorem mixer_step_count_witness :
    proof_mixer p1c5 p2c5 = some (mix5_assumptions, mix5_steps) ∧
      mix5_steps.length = p1c5.steps.length + p2c5.steps.length :=
  ⟨by decide, mixer_step_count p1c5 p2c5 mix5_assumptions mix5_steps (by decide)⟩

/-! ### C8: rule-application premise indices -/

/-- C8 (amended): a premise index at or beyond the number of already-computed
state entries (in particular any forward or self reference) makes the
application yield `none`.  Negative indices are, contrary to the claim, not
rejected: Python list indexing resolves them from the end of the computed
prefix (see `rule_application_negative_index`). -/
theorem rule_application_out_of_range (rule : InferenceRule)
    (idcs : List Int) (st : List Formula)
    (h : ∃ i ∈ idcs, (st.length : Int) ≤ i) :
    rule_application_apply rule idcs st = none := by
  unfold rule_application_apply
  have hany : idcs.any (fun i => decide (i + 1 > (st.length : Int))) = true := by
    obtain ⟨i, hi, hle⟩ := h
    refine List.any_eq_true.mpr ⟨i, hi, ?_⟩
    simp only [decide_eq_true_eq]
    omega
  simp [hany]

/-- Witness for C8 at a concrete out-of-range index. -/
theorem rule_application_out_of_range_witness :
    (∃ i ∈ [(2 : Int)], ((([vA] : List Formula).length : Int) ≤ i)) ∧
      rule_application_apply mp_rule [2] [vA] = none :=
  ⟨by decide, rule_application_out_of_range mp_rule [2] [vA] (by decide)⟩

/-- C8 counterexample: the claim says a negative premise index yields no
formula, but `MP(-2, -1)` against the two computed entries `A`, `A → B`
derives `B` (Python indexes the state list from its end). -/
theorem rule_application_negative_index :
    rule_application_apply mp_rule [-2, -1] [vA, .imp vA vB] = some vB := by
  decide

/-! ### C7: used_assumptions -/

/-- C7 (amended): `used_assumptions` has one entry per `AssumptionInclusion`
step that resolves to a formula (so it can repeat a formula, contrary to the
claim's "de-duplicated"); a formula is in it exactly when some
`AssumptionInclusion` step resolves to it. -/
theorem used_assumptions_spec (p : Proof) (f : Formula) :
    f ∈ p.used_assumptions ↔
      ∃ i : Int, ProofStep.ass i ∈ p.steps ∧
        assumption_inclusion_apply i p.assumptions = some f := by
  unfold Proof.used_assumptions
  rw [List.mem_filterMap]
  constructor
  · rintro ⟨s, hs, hf⟩
    cases s with
    | ass i => exact ⟨i, hs, hf⟩
    | axS j b => cases hf
    | ruleApp r idcs => cases hf
  · rintro ⟨i, hs, hf⟩
    exact ⟨.ass i, hs, hf⟩

/-- C7 counterexample: a checking proof whose `used_assumptions` holds the
same formula twice. -/
theorem used_assumptions_duplicate :
    mk_proof [ai_rule] [] [vA] (.and vA vA)
        [.ass 0, .ass 0, .ruleApp ai_rule [0, 1]] = some cp6p ∧
      cp6p.check = true ∧
      cp6p.used_assumptions = [vA, vA] ∧
      ¬ cp6p.used_assumptions.Nodup := by
  refine ⟨by decide, by decide, by decide, by decide⟩

/-! ### C1: the deduction-theorem transformation -/

/-- C1: `discharge` fails on valid input.  `cp1p` is a constructed, checking
proof of `B` from `[A, B]`; discharging its assumption `A` takes case 1
(`A` is superfluous) and the source then dereferences the nonexistent
attribute `proof.ssssteps` (`hilbert_system.py` line 69), so the call raises
AttributeError instead of returning a proof of `A → B`, at every recursion
depth. -/
theorem assumption_to_implication_crash :
    mk_pcproof [vA, vB] vB [.ass 1] = some cp1p ∧
      cp1p.check = true ∧
      vA ∈ cp1p.assumptions ∧
      assumption_to_implication_case cp1p vA = some 1 ∧
      ∀ fuel : Nat, assumption_to_implication (fuel + 1) cp1p vA = none :=
  ⟨by decide, by decide, by decide, by decide, fun _ => rfl⟩

/-! ### C6: step_subproof with dropped assumptions -/

/-- C6: on the valid proof `cp6p` (which references assumption 0 twice) the
compacted assumption list that `step_subproof(2, True)` builds is `[A, A]` —
the source appends `self.assumptions[i]` on every `AssumptionInclusion` step
before checking whether `i` was already remapped — so the rebuilt `Proof`
violates the constructor's no-repeated-assumptions assertion and the call
raises instead of returning the subproof. -/
theorem step_subproof_duplicate_assumptions :
    mk_proof [ai_rule] [] [vA] (.and vA vA)
        [.ass 0, .ass 0, .ruleApp ai_rule [0, 1]] = some cp6p ∧
      cp6p.check = true ∧
      python_get cp6p.state 2 = some (some (.and vA vA)) ∧
      cp6p.step_dependencies 2 = some [0, 1] ∧
      (subproof_loop cp6p true [0, 1, 2] 0 [] [] [] []).map Prod.fst =
        some [vA, vA] ∧
      cp6p.step_subproof 2 true = none := by
  refine ⟨by decide, by decide, by decide, by decide, by decide, by decide⟩

/-! ### C10: constructor invariants and non-empty state -/

theorem state_loop_ne_nil (a ax : List Formula) (steps : List ProofStep)
    (acc : List Formula) (h : steps ≠ []) :
    state_loop a ax steps acc ≠ [] := by
  cases steps with
  | nil => exact absurd rfl h
  | cons s rest =>
    unfold state_loop
    cases step_apply a ax acc s <;> simp

/-- C10: every proof built by the constructor has a nonempty step list, a
duplicate-free assumption list and only rule applications whose rule is in
the rule set; consequently its state is nonempty, so `check`'s `state[-1]`
never reads an empty list. -/
theorem mk_proof_invariants (rules : List InferenceRule)
    (axioms assumptions : List Formula) (conclusion : Formula)
    (steps : List ProofStep) (p : Proof)
    (h : mk_proof rules axioms assumptions conclusion steps = some p) :
    p.steps ≠ [] ∧ p.assumptions.Nodup ∧
      (∀ r idcs, ProofStep.ruleApp r idcs ∈ p.steps → r ∈ p.rules) ∧
      p.state ≠ [] := by
  unfold mk_proof at h
  split at h
  · next hc =>
    cases h
    obtain ⟨hlen, hnodup, hrules⟩ := hc
    have hne : steps ≠ [] := List.length_pos.mp hlen
    refine ⟨hne, hnodup, ?_, ?_⟩
    · intro r idcs hmem
      have := hrules _ hmem
      simpa [ProofStep.rule_ok] using this
    · exact state_loop_ne_nil _ _ _ _ hne
  · cases h

/-- Witness for C10 at the concrete proof `cpMPp`. -/
theorem mk_proof_invariants_witness :
    cpMPp.steps ≠ [] ∧ cpMPp.assumptions.Nodup ∧
      (∀ r idcs, ProofStep.ruleApp r idcs ∈ cpMPp.steps → r ∈ cpMPp.rules) ∧
      cpMPp.state ≠ [] :=
  mk_proof_invariants [mp_rule] pc_axioms [vA, .imp vA vB] vB
    [.ass 0, .ass 1, .ruleApp mp_rule [0, 1]] cpMPp (by decide)

/-! ### C2: the state sequence and check -/

theorem state_loop_length_le (a ax : List Formula) :
    ∀ (steps : List ProofStep) (acc : List Formula),
      (state_loop a ax steps acc).length ≤ steps.length := by
  intro steps
  induction steps with
  | nil => intro acc; simp [state_loop]
  | cons s rest ih =>
    intro acc
    unfold state_loop
    cases step_apply a ax acc s with
    | none => simp
    | some f => simpa using ih (acc ++ [f])

theorem state_loop_none_last (a ax : List Formula) :
    ∀ (steps : List ProofStep) (acc : List Formula) (i : Nat),
      (state_loop a ax steps acc).get? i = some none →
      i + 1 = (state_loop a ax steps acc).length := by
  intro steps
  induction steps with
  | nil => intro acc i h; simp [state_loop] at h
  | cons s rest ih =>
    intro acc i h
    unfold state_loop at h ⊢
    cases hs : step_apply a ax acc s with
    | none =>
      rw [hs] at h
      cases i with
      | zero => simp
      | succ k => simp at h
    | some f =>
      rw [hs] at h
      cases i with
      | zero => simp at h
      | succ k =>
        rw [List.get?_cons_succ] at h
        have := ih (acc ++ [f]) k h
        simpa using this

theorem state_loop_eq_nil (a ax : List Formula) (steps : List ProofStep)
    (acc : List Formula) (h : state_loop a ax steps acc = []) : steps = [] := by
  cases steps with
  | nil => rfl
  | cons s rest => exact absurd h (state_loop_ne_nil a ax (s :: rest) acc (by simp))

theorem state_loop_last_some (a ax : List Formula) :
    ∀ (steps : List ProofStep) (acc : List Formula) (f : Formula),
      (state_loop a ax steps acc).getLast? = some (some f) →
      (state_loop a ax steps acc).length = steps.length := by
  intro steps
  induction steps with
  | nil => intro acc f h; simp [state_loop] at h
  | cons s rest ih =>
    intro acc f h
    unfold state_loop at h ⊢
    cases hs : step_apply a ax acc s with
    | none => rw [hs] at h; simp at h
    | some g =>
      rw [hs] at h
      dsimp only at h ⊢
      cases hL : state_loop a ax rest (acc ++ [g]) with
      | nil =>
        have hrest : rest = [] := state_loop_eq_nil a ax rest (acc ++ [g]) hL
        simp [hL, hrest]
      | cons x xs =>
        rw [hL, List.getLast?_cons_cons] at h
        have hlen := ih (acc ++ [g]) f (by rw [hL]; exact h)
        rw [hL] at hlen
        simp only [List.length_cons] at hlen ⊢
        omega

theorem state_loop_get_spec (a ax : List Formula) :
    ∀ (steps : List ProofStep) (acc : List Formula) (i : Nat)
      (o : Option Formula),
      (state_loop a ax steps acc).get? i = some o →
      ∃ st, steps.get? i = some st ∧
        o = step_apply a ax
          (acc ++ ((state_loop a ax steps acc).take i).reduceOption) st := by
  intro steps
  induction steps with
  | nil => intro acc i o h; simp [state_loop] at h
  | cons s rest ih =>
    intro acc i o h
    unfold state_loop at h ⊢
    cases hs : step_apply a ax acc s with
    | none =>
      rw [hs] at h
      cases i with
      | zero =>
        cases h
        exact ⟨s, rfl, by simpa using hs.symm⟩
      | succ k => simp at h
    | some f =>
      rw [hs] at h
      cases i with
      | zero =>
        cases h
        exact ⟨s, rfl, by simpa using hs.symm⟩
      | succ k =>
        rw [List.get?_cons_succ] at h
        obtain ⟨st, hst, ho⟩ := ih (acc ++ [f]) k o h
        refine ⟨st, hst, ?_⟩
        rw [ho]
        simp [List.append_assoc]

/-- C2: the state is step-by-step interpretation against the strictly earlier
entries (first conjunct), it halts at the first failed step (a `none` entry
can only be its last entry, second conjunct, and it never runs past the
steps, third), and `check` holds exactly when the state covers every step
and its last entry is the conclusion. -/
theorem state_and_check_spec (p : Proof) :
    (∀ i o, p.state.get? i = some o →
        ∃ st, p.steps.get? i = some st ∧
          o = step_apply p.assumptions p.axioms
            ((p.state.take i).reduceOption) st) ∧
    (∀ i, p.state.get? i = some none → i + 1 = p.state.length) ∧
    p.state.length ≤ p.steps.length ∧
    (p.check = true ↔
      p.state.length = p.steps.length ∧
        p.state.getLast? = some (some p.conclusion)) := by
  refine ⟨?_, ?_, ?_, ?_⟩
  · intro i o h
    have := state_loop_get_spec p.assumptions p.axioms p.steps [] i o h
    simpa [Proof.state] using this
  · intro i h
    exact state_loop_none_last p.assumptions p.axioms p.steps [] i h
  · exact state_loop_length_le p.assumptions p.axioms p.steps []
  · constructor
    · intro h
      have hlast : p.state.getLast? = some (some p.conclusion) := by
        simpa [Proof.check] using h
      exact ⟨state_loop_last_some p.assumptions p.axioms p.steps []
        p.conclusion hlast, hlast⟩
    · intro h
      simp [Proof.check, h.2]

/-! ### C3: the InferenceRule.apply contract -/

theorem sum_size_children (f : Formula) :
    ((f.children.map Formula.size).sum) + 1 = f.size := by
  cases f <;> simp [Formula.children, Formula.size] <;> omega

/-- The fuel passed to the BFS loop is exact: with fuel equal to the total
node count of the queued trees, the loop yields one entry per node and stops
with an empty queue, as the source's `while` loop does. -/
theorem breadth_loop_length :
    ∀ (fuel : Nat) (q : List Formula),
      (q.map Formula.size).sum = fuel → (breadth_loop fuel q).length = fuel := by
  intro fuel
  induction fuel with
  | zero => intro q _; rfl
  | succ n ih =>
    intro q hq
    cases q with
    | nil => simp at hq
    | cons v rest =>
      simp only [breadth_loop, List.length_cons]
      rw [ih (rest ++ v.children)]
      have hv := sum_size_children v
      simp only [List.map_cons, List.sum_cons] at hq
      simp only [List.map_append, List.sum_append]
      omega

/-- Each traversal visits every node of the subject exactly once. -/
theorem traverse_length (f : Formula) (ord : OrderType) :
    (f.traverse ord).length = f.size := by
  cases ord with
  | breadth_first =>
    exact breadth_loop_length f.size [f] (by simp)
  | preorder =>
    show f.traverse_preorder.length = f.size
    induction f with
    | var n => rfl
    | const b => rfl
    | neg g ih =>
      simp [Formula.traverse_preorder, Formula.size, ih]
      omega
    | and l r ihl ihr =>
      simp [Formula.traverse_preorder, Formula.size, ihl, ihr]
      omega
    | or l r ihl ihr =>
      simp [Formula.traverse_preorder, Formula.size, ihl, ihr]
      omega
    | imp l r ihl ihr =>
      simp [Formula.traverse_preorder, Formula.size, ihl, ihr]
      omega

theorem traverse_preorder_head (f : Formula) :
    f.traverse_preorder.head? = some f := by
  cases f <;> simp [Formula.traverse_preorder]

theorem size_pos (f : Formula) : 0 < f.size := by
  cases f <;> simp [Formula.size]

theorem traverse_breadth_head (f : Formula) :
    f.traverse_breadth.head? = some f := by
  unfold Formula.traverse_breadth
  obtain ⟨n, hn⟩ := Nat.exists_eq_add_of_lt (size_pos f)
  rw [hn]
  simp [breadth_loop]

theorem pattern_match_head (pat s : Formula) (ord : OrderType) :
    (pattern_match pat s ord).head? = some (match_inner pat s []) := by
  unfold pattern_match
  rw [List.head?_map]
  cases ord with
  | preorder => simp [Formula.traverse, traverse_preorder_head]
  | breadth_first => simp [Formula.traverse, traverse_breadth_head]

/-- The contract of C3 (spec §4.3), written from the claim's words, to be
compared with `InferenceRule.apply`: fail on an arity mismatch; fail when the
conclusion variables absent from all assumption patterns are not exactly the
keys of the conclusion binding; otherwise match each assumption pattern
against the corresponding concrete formula at the whole-formula position
only, fold all match results together with the conclusion binding through
`merge_bindings` (failing on any match failure or merge conflict) and
substitute the merged binding into the conclusion pattern. -/
def inference_rule_apply_spec (r : InferenceRule) (assumptions : List Formula)
    (conclusion_binding : Binding) : Option Formula :=
  if assumptions.length ≠ r.arity then none
  else if ¬ same_set
      (r.conclusion_vars.filter (fun v => ¬ v ∈ r.assumptions_vars))
      (binding_keys conclusion_binding) = true then none
  else
    match ((r.assumptions.zip assumptions).map
        (fun pr => match_inner pr.1 pr.2 [])).foldl
        (fun acc mb => acc.bind (fun g => mb.bind (fun b => merge_bindings g b)))
        (some conclusion_binding) with
    | none => none
    | some gb => some (r.conclusion.subs gb)

theorem merge_fold_none (l : List (Option Binding)) :
    l.foldl
      (fun acc mb => acc.bind (fun g => mb.bind (fun b => merge_bindings g b)))
      none = none := by
  induction l with
  | nil => rfl
  | cons m rest ih => simpa using ih

theorem apply_loop_eq_fold :
    ∀ (gens specs : List Formula) (gb : Binding),
      apply_loop gens specs gb =
        ((gens.zip specs).map (fun pr => match_inner pr.1 pr.2 [])).foldl
          (fun acc mb =>
            acc.bind (fun g => mb.bind (fun b => merge_bindings g b)))
          (some gb) := by
  intro gens
  induction gens with
  | nil => intro specs gb; simp [apply_loop]
  | cons g gs ih =>
    intro specs gb
    cases specs with
    | nil => simp [apply_loop]
    | cons s ss =>
      unfold apply_loop
      rw [pattern_match_head]
      cases hm : match_inner g s [] with
      | none => simp [hm, merge_fold_none]
      | some b =>
        cases hmerge : merge_bindings gb b with
        | none => simp [hm, hmerge, merge_fold_none]
        | some gb' => simp [hm, hmerge, ih ss gb']

/-- C3: `InferenceRule.apply` coincides with the claim's contract
(`inference_rule_apply_spec`) on every rule, concrete assumption list and
conclusion binding. -/
theorem inference_rule_apply_spec_correct (r : InferenceRule)
    (assumptions : List Formula) (conclusion_binding : Binding) :
    r.apply assumptions conclusion_binding =
      inference_rule_apply_spec r assumptions conclusion_binding := by
  unfold InferenceRule.apply inference_rule_apply_spec InferenceRule.arity
  split_ifs <;> try omega
  all_goals try rfl
  rw [apply_loop_eq_fold]
  cases hf : ((r.assumptions.zip assumptions).map
      (fun pr => match_inner pr.1 pr.2 [])).foldl
      (fun acc mb =>
        acc.bind (fun g => mb.bind (fun b => merge_bindings g b)))
      (some conclusion_binding) <;> simp [hf]

/-! ### C9: matcher soundness -/

theorem binding_get_mem :
    ∀ (b : Binding) (v : String) (f : Formula),
      binding_get b v = some f → (v, f) ∈ b := by
  intro b
  induction b with
  | nil => intro v f h; cases h
  | cons p rest ih =>
    intro v f h
    obtain ⟨w, g⟩ := p
    simp only [binding_get] at h
    by_cases hw : w = v
    · rw [if_pos hw] at h
      cases h
      subst hw
      exact List.mem_cons_self _ _
    · rw [if_neg hw] at h
      exact List.mem_cons_of_mem _ (ih v f h)

theorem binding_get_append_some :
    ∀ (b c : Binding) (v : String) (f : Formula),
      binding_get b v = some f → binding_get (b ++ c) v = some f := by
  intro b c
  induction b with
  | nil => intro v f h; cases h
  | cons p rest ih =>
    intro v f h
    obtain ⟨w, g⟩ := p
    simp only [List.cons_append, binding_get] at h ⊢
    by_cases hw : w = v
    · rwa [if_pos hw] at h ⊢
    · rw [if_neg hw] at h ⊢
      exact ih v f h

theorem binding_get_append_none :
    ∀ (b c : Binding) (v : String),
      binding_get b v = none → binding_get (b ++ c) v = binding_get c v := by
  intro b c
  induction b with
  | nil => intro v _; rfl
  | cons p rest ih =>
    intro v h
    obtain ⟨w, g⟩ := p
    simp only [List.cons_append, binding_get] at h ⊢
    by_cases hw : w = v
    · rw [if_pos hw] at h; cases h
    · rw [if_neg hw] at h ⊢
      exact ih v h

theorem binding_set_absent :
    ∀ (b : Binding) (v : String) (f : Formula),
      binding_get b v = none → binding_set b v f = b ++ [(v, f)] := by
  intro b
  induction b with
  | nil => intro v f _; rfl
  | cons p rest ih =>
    intro v f h
    obtain ⟨w, g⟩ := p
    simp only [binding_get] at h
    simp only [binding_set]
    by_cases hw : w = v
    · rw [if_pos hw] at h; cases h
    · rw [if_neg hw] at h
      rw [if_neg hw, ih v f h]
      rfl

theorem match_inner_self :
    ∀ (g : Formula) (b : Binding), (∀ p ∈ b, p.2 = Formula.var p.1) →
      ∃ b', match_inner g g b = some b' ∧
        (∀ p ∈ b', p.2 = Formula.var p.1) ∧
        (∀ v x, binding_get b v = some x → binding_get b' v = some x) ∧
        (∀ v, v ∈ g.vars → (binding_get b' v).isSome = true) ∧
        (∀ p ∈ b', p ∈ b ∨ p.1 ∈ g.vars) := by
  intro g
  induction g with
  | var n =>
    intro b hb
    cases hg : binding_get b n with
    | none =>
      simp only [match_inner, hg]
      rw [binding_set_absent b n (.var n) hg]
      refine ⟨b ++ [(n, .var n)], rfl, ?_, ?_, ?_, ?_⟩
      · intro p hp
        rcases List.mem_append.mp hp with hp' | hp'
        · exact hb p hp'
        · simp only [List.mem_singleton] at hp'
          subst hp'
          rfl
      · intro v x hx
        exact binding_get_append_some b _ v x hx
      · intro v hv
        simp only [Formula.vars, List.mem_singleton] at hv
        subst hv
        rw [binding_get_append_none b _ v hg]
        simp [binding_get]
      · intro p hp
        rcases List.mem_append.mp hp with hp' | hp'
        · exact Or.inl hp'
        · simp only [List.mem_singleton] at hp'
          subst hp'
          simp [Formula.vars]
    | some f =>
      have hf : f = .var n := hb _ (binding_get_mem b n f hg)
      simp only [match_inner, hg]
      rw [if_pos hf]
      refine ⟨b, rfl, hb, fun v x h => h, ?_, fun p hp => Or.inl hp⟩
      intro v hv
      simp only [Formula.vars, List.mem_singleton] at hv
      subst hv
      rw [hg]
      rfl
  | const c =>
    intro b hb
    refine ⟨b, ?_, hb, fun v x h => h, ?_, fun p hp => Or.inl hp⟩
    · cases c <;> rfl
    · intro v hv
      simp [Formula.vars] at hv
  | neg f ih =>
    intro b hb
    obtain ⟨b', h1, h2, h3, h4, h5⟩ := ih b hb
    exact ⟨b', h1, h2, h3, h4, h5⟩
  | and l r ihl ihr =>
    intro b hb
    obtain ⟨b1, h1, h2, h3, h4, h5⟩ := ihl b hb
    obtain ⟨b2, g1, g2, g3, g4, g5⟩ := ihr b1 h2
    refine ⟨b2, ?_, g2, fun v x hx => g3 v x (h3 v x hx), ?_, ?_⟩
    · show (match_inner l l b).bind (match_inner r r) = some b2
      rw [h1]
      exact g1
    · intro v hv
      rcases List.mem_append.mp hv with hv' | hv'
      · obtain ⟨x, hx⟩ := Option.isSome_iff_exists.mp (h4 v hv')
        rw [g3 v x hx]
        rfl
      · exact g4 v hv'
    · intro p hp
      rcases g5 p hp with hp' | hp'
      · rcases h5 p hp' with hp'' | hp''
        · exact Or.inl hp''
        · exact Or.inr (List.mem_append.mpr (Or.inl hp''))
      · exact Or.inr (List.mem_append.mpr (Or.inr hp'))
  | or l r ihl ihr =>
    intro b hb
    obtain ⟨b1, h1, h2, h3, h4, h5⟩ := ihl b hb
    obtain ⟨b2, g1, g2, g3, g4, g5⟩ := ihr b1 h2
    refine ⟨b2, ?_, g2, fun v x hx => g3 v x (h3 v x hx), ?_, ?_⟩
    · show (match_inner l l b).bind (match_inner r r) = some b2
      rw [h1]
      exact g1
    · intro v hv
      rcases List.mem_append.mp hv with hv' | hv'
      · obtain ⟨x, hx⟩ := Option.isSome_iff_exists.mp (h4 v hv')
        rw [g3 v x hx]
        rfl
      · exact g4 v hv'
    · intro p hp
      rcases g5 p hp with hp' | hp'
      · rcases h5 p hp' with hp'' | hp''
        · exact Or.inl hp''
        · exact Or.inr (List.mem_append.mpr (Or.inl hp''))
      · exact Or.inr (List.mem_append.mpr (Or.inr hp'))
  | imp l r ihl ihr =>
    intro b hb
    obtain ⟨b1, h1, h2, h3, h4, h5⟩ := ihl b hb
    obtain ⟨b2, g1, g2, g3, g4, g5⟩ := ihr b1 h2
    refine ⟨b2, ?_, g2, fun v x hx => g3 v x (h3 v x hx), ?_, ?_⟩
    · show (match_inner l l b).bind (match_inner r r) = some b2
      rw [h1]
      exact g1
    · intro v hv
      rcases List.mem_append.mp hv with hv' | hv'
      · obtain ⟨x, hx⟩ := Option.isSome_iff_exists.mp (h4 v hv')
        rw [g3 v x hx]
        rfl
      · exact g4 v hv'
    · intro p hp
      rcases g5 p hp with hp' | hp'
      · rcases h5 p hp' with hp'' | hp''
        · exact Or.inl hp''
        · exact Or.inr (List.mem_append.mpr (Or.inl hp''))
      · exact Or.inr (List.mem_append.mpr (Or.inr hp'))

/-- C9: matching a subject's own subtree at position `p` against the subject
produces, at position `p` of the match sequence, a successful binding whose
entries bind exactly the subtree's variables, each to itself. -/
theorem matcher_soundness (f : Formula) (ord : OrderType) (p : Nat)
    (sub : Formula) (h : (f.traverse ord).get? p = some sub) :
    ∃ b, (pattern_match sub f ord).get? p = some (some b) ∧
      (∀ q ∈ b, q.2 = Formula.var q.1 ∧ q.1 ∈ sub.vars) ∧
      (∀ v ∈ sub.vars, binding_get b v = some (Formula.var v)) := by
  obtain ⟨b', h1, h2, h3, h4, h5⟩ := match_inner_self sub [] (by simp)
  refine ⟨b', ?_, ?_, ?_⟩
  · unfold pattern_match
    rw [List.get?_map, h]
    simp [h1]
  · intro q hq
    rcases h5 q hq with hq' | hq'
    · cases hq'
    · exact ⟨h2 q hq, hq'⟩
  · intro v hv
    obtain ⟨x, hx⟩ := Option.isSome_iff_exists.mp (h4 v hv)
    have hx2 := h2 _ (binding_get_mem b' v x hx)
    rw [hx]
    exact congrArg some hx2

/-- The subject used by the C9 witness. -/
def f9 : Formula := .imp (.and vA vB) (.neg vA)

/-- Witness for C9: position 1 of the breadth-first traversal of `f9` is
`A ∧ B`, and matching it against `f9` succeeds there with the identity
binding on `{A, B}`. -/
theorem matcher_soundness_witness :
    (f9.traverse .breadth_first).get? 1 = some (.and vA vB) ∧
      ∃ b, (pattern_match (.and vA vB) f9 .breadth_first).get? 1 =
          some (some b) ∧
        (∀ q ∈ b, q.2 = Formula.var q.1 ∧ q.1 ∈ (Formula.and vA vB).vars) ∧
        (∀ v ∈ (Formula.and vA vB).vars,
          binding_get b v = some (Formula.var v)) :=
  ⟨by decide, matcher_soundness f9 .breadth_first 1 (.and vA vB) (by decide)⟩

/-! ### C5: mixer reindexing -/

theorem list_index_append_of_mem [DecidableEq α] (t : List α) (a : α) :
    ∀ (l : List α), a ∈ l → list_index (l ++ t) a = list_index l a := by
  intro l
  induction l with
  | nil => intro h; cases h
  | cons x rest ih =>
    intro h
    simp only [List.cons_append, list_index]
    by_cases hx : x = a
    · rw [if_pos hx, if_pos hx]
    · rw [if_neg hx, if_neg hx]
      have hm : a ∈ rest := by
        rcases List.mem_cons.mp h with h' | h'
        · exact absurd h'.symm hx
        · exact h'
      show 1 + list_index (rest ++ t) a = 1 + list_index rest a
      rw [ih hm]

theorem list_index_append_self [DecidableEq α] (t : List α) (a : α) :
    ∀ (l : List α), a ∉ l → list_index (l ++ a :: t) a = l.length := by
  intro l
  induction l with
  | nil => intro _; simp [list_index]
  | cons x rest ih =>
    intro h
    simp only [List.cons_append, list_index]
    have hx : ¬ x = a := by
      intro he
      subst he
      exact h (List.mem_cons_self x rest)
    rw [if_neg hx]
    show 1 + list_index (rest ++ a :: t) a = (x :: rest).length
    rw [ih (fun hm => h (List.mem_cons_of_mem _ hm))]
    simp only [List.length_cons]
    omega

theorem alist_get_set_self :
    ∀ (l : List (Int × Int)) (k v : Int),
      alist_get (alist_set l k v) k = some v := by
  intro l
  induction l with
  | nil => intro k v; simp [alist_set, alist_get]
  | cons p rest ih =>
    intro k v
    obtain ⟨k', v'⟩ := p
    simp only [alist_set]
    by_cases hk : k' = k
    · rw [if_pos hk]
      simp [alist_get, hk]
    · rw [if_neg hk]
      simp only [alist_get]
      rw [if_neg hk]
      exact ih k v

theorem alist_get_set_ne :
    ∀ (l : List (Int × Int)) (k v k' : Int), k ≠ k' →
      alist_get (alist_set l k v) k' = alist_get l k' := by
  intro l
  induction l with
  | nil =>
    intro k v k' hk
    simp only [alist_set, alist_get]
    rw [if_neg hk]
  | cons p rest ih =>
    intro k v k' hk
    obtain ⟨k0, v0⟩ := p
    simp only [alist_set]
    by_cases h0 : k0 = k
    · rw [if_pos h0]
      simp only [alist_get]
      subst h0
      rw [if_neg hk, if_neg hk]
    · rw [if_neg h0]
      simp only [alist_get]
      by_cases h1 : k0 = k'
      · rw [if_pos h1, if_pos h1]
      · rw [if_neg h1, if_neg h1]
        exact ih k v k' hk

theorem mix_loop_assumptions :
    ∀ (l2 : List Formula), l2.Nodup →
    ∀ (acc : List Formula) (reindex : List (Int × Int)) (i : Int),
      (mix_assumptions_loop l2 acc reindex i).1 =
        acc ++ l2.filter (fun a => decide (a ∉ acc)) := by
  intro l2
  induction l2 with
  | nil => intro _ acc reindex i; simp [mix_assumptions_loop]
  | cons a rest ih =>
    intro hnd acc reindex i
    have hnd' : rest.Nodup := (List.nodup_cons.mp hnd).2
    have ha : a ∉ rest := (List.nodup_cons.mp hnd).1
    unfold mix_assumptions_loop
    by_cases hmem : a ∈ acc
    · rw [if_pos hmem, ih hnd' acc _ (i + 1)]
      simp [List.filter_cons, hmem]
    · rw [if_neg hmem, ih hnd' (acc ++ [a]) _ (i + 1)]
      have hfeq : rest.filter (fun x => decide (x ∉ acc ++ [a])) =
          rest.filter (fun x => decide (x ∉ acc)) := by
        apply List.filter_congr
        intro x hx
        have hxa : x ≠ a := fun he => ha (he ▸ hx)
        simp [List.mem_append, hxa]
      rw [hfeq]
      simp [List.filter_cons, hmem, List.append_assoc]

theorem mix_loop_preserves :
    ∀ (l2 : List Formula) (acc : List Formula) (reindex : List (Int × Int))
      (i key : Int), key < i →
      alist_get (mix_assumptions_loop l2 acc reindex i).2 key =
        alist_get reindex key := by
  intro l2
  induction l2 with
  | nil => intro acc reindex i key _; rfl
  | cons a rest ih =>
    intro acc reindex i key hk
    unfold mix_assumptions_loop
    by_cases hmem : a ∈ acc
    · rw [if_pos hmem, ih acc _ (i + 1) key (by omega)]
      exact alist_get_set_ne reindex i _ key (by omega)
    · rw [if_neg hmem, ih (acc ++ [a]) _ (i + 1) key (by omega)]
      exact alist_get_set_ne reindex i _ key (by omega)

theorem mix_loop_keys :
    ∀ (l2 : List Formula) (acc : List Formula) (reindex : List (Int × Int))
      (i key v : Int),
      alist_get (mix_assumptions_loop l2 acc reindex i).2 key = some v →
      alist_get reindex key = some v ∨
        (i ≤ key ∧ key < i + l2.length) := by
  intro l2
  induction l2 with
  | nil => intro acc reindex i key v h; exact Or.inl h
  | cons a rest ih =>
    intro acc reindex i key v h
    unfold mix_assumptions_loop at h
    by_cases hmem : a ∈ acc
    · rw [if_pos hmem] at h
      rcases ih acc _ (i + 1) key v h with h' | h'
      · by_cases hk : i = key
        · right
          subst hk
          simp only [List.length_cons]
          push_cast
          omega
        · left
          rwa [alist_get_set_ne reindex i _ key hk] at h'
      · right
        simp only [List.length_cons]
        push_cast
        omega
    · rw [if_neg hmem] at h
      rcases ih (acc ++ [a]) _ (i + 1) key v h with h' | h'
      · by_cases hk : i = key
        · right
          subst hk
          simp only [List.length_cons]
          push_cast
          omega
        · left
          rwa [alist_get_set_ne reindex i _ key hk] at h'
      · right
        simp only [List.length_cons]
        push_cast
        omega

theorem mix_loop_get :
    ∀ (l2 : List Formula), l2.Nodup →
    ∀ (acc : List Formula) (reindex : List (Int × Int)) (i : Int)
      (k : Nat) (a : Formula), l2.get? k = some a →
      alist_get (mix_assumptions_loop l2 acc reindex i).2 (i + (k : Int)) =
        some ((list_index (mix_assumptions_loop l2 acc reindex i).1 a : Nat) : Int) := by
  intro l2
  induction l2 with
  | nil => intro _ acc reindex i k a hk; cases hk
  | cons x rest ih =>
    intro hnd acc reindex i k a hk
    have hnd' : rest.Nodup := (List.nodup_cons.mp hnd).2
    unfold mix_assumptions_loop
    by_cases hmem : x ∈ acc
    · rw [if_pos hmem]
      cases k with
      | zero =>
        cases hk
        have hkey : i + ((0 : Nat) : Int) = i := by push_cast; ring
        rw [hkey, mix_loop_preserves rest acc _ (i + 1) i (by omega),
          alist_get_set_self]
        rw [mix_loop_assumptions rest hnd' acc _ (i + 1)]
        rw [list_index_append_of_mem _ _ _ hmem]
      | succ n =>
        have hkey : i + ((n + 1 : Nat) : Int) = (i + 1) + (n : Int) := by
          push_cast
          ring
        rw [hkey]
        exact ih hnd' acc _ (i + 1) n a hk
    · rw [if_neg hmem]
      cases k with
      | zero =>
        cases hk
        have hkey : i + ((0 : Nat) : Int) = i := by push_cast; ring
        rw [hkey, mix_loop_preserves rest (acc ++ [x]) _ (i + 1) i (by omega),
          alist_get_set_self]
        rw [mix_loop_assumptions rest hnd' (acc ++ [x]) _ (i + 1),
          List.append_assoc]
        rw [List.singleton_append, list_index_append_self _ _ _ hmem]
      | succ n =>
        have hkey : i + ((n + 1 : Nat) : Int) = (i + 1) + (n : Int) := by
          push_cast
          ring
        rw [hkey]
        exact ih hnd' (acc ++ [x]) _ (i + 1) n a hk

/-- C5 (amended): `proof_mixer` unions the assumption lists preserving `p1`'s
order and appending only `p2` assumptions absent from `p1`; it keeps `p1`'s
steps in place, remaps each `p2` `AssumptionInclusion` index through that
assumption remap (first occurrence in the merged list), and increments each
`p2` `RuleApplication` premise index by the count of `p1`'s steps only — not,
as the claim states, by the count of `p1`'s assumptions plus `p1`'s steps
(see `mixer_pad_counterexample`). -/
theorem mixer_reindexing (p1 p2 : Proof) (as : List Formula)
    (ss : List ProofStep) (hnd : p2.assumptions.Nodup)
    (h : proof_mixer p1 p2 = some (as, ss)) :
    as = p1.assumptions ++
        p2.assumptions.filter (fun a => decide (a ∉ p1.assumptions)) ∧
    ss.take p1.steps.length = p1.steps ∧
    (∀ k i, p2.steps.get? k = some (.ass i) →
      ∃ (n : Nat) (a : Formula), i = (n : Int) ∧
        p2.assumptions.get? n = some a ∧
        ss.get? (p1.steps.length + k) =
          some (.ass ((list_index as a : Nat) : Int))) ∧
    (∀ k r idcs, p2.steps.get? k = some (.ruleApp r idcs) →
      ss.get? (p1.steps.length + k) =
        some (.ruleApp r (idcs.map (· + (p1.steps.length : Int))))) ∧
    (∀ k j b, p2.steps.get? k = some (.axS j b) →
      ss.get? (p1.steps.length + k) = some (.axS j b)) := by
  unfold proof_mixer at h
  split at h
  · dsimp only at h
    cases hm : option_map_list
        (mixer_step (mix_assumptions_loop p2.assumptions p1.assumptions [] 0).2
          p1.steps.length) p2.steps with
    | none => rw [hm] at h; cases h
    | some steps2 =>
      rw [hm] at h
      simp only [Option.some.injEq, Prod.mk.injEq] at h
      obtain ⟨has, hss⟩ := h
      subst has
      subst hss
      have hget2 : ∀ (k : Nat) (st : ProofStep),
          p2.steps.get? k = some st →
          ∃ st', mixer_step
              (mix_assumptions_loop p2.assumptions p1.assumptions [] 0).2
              p1.steps.length st = some st' ∧
            (p1.steps ++ steps2).get? (p1.steps.length + k) = some st' := by
        intro k st hk
        obtain ⟨st', h1, h2⟩ := option_map_list_get _ _ _ _ _ hm hk
        refine ⟨st', h1, ?_⟩
        rw [List.get?_append_right (by omega)]
        simpa using h2
      refine ⟨mix_loop_assumptions p2.assumptions hnd p1.assumptions [] 0,
        List.take_left _ _, ?_, ?_, ?_⟩
      · intro k i hk
        obtain ⟨st', h1, h2⟩ := hget2 k _ hk
        unfold mixer_step at h1
        obtain ⟨j, hg, hst⟩ := Option.map_eq_some'.mp h1
        rcases mix_loop_keys p2.assumptions p1.assumptions [] 0 i j hg
          with hcontra | hrange
        · cases hcontra
        · have h0 : 0 ≤ i := hrange.1
          have hlt : i < (p2.assumptions.length : Int) := by
            have h2' := hrange.2
            omega
          have hn : (i.toNat : Int) = i := Int.toNat_of_nonneg h0
          have hnlt : i.toNat < p2.assumptions.length := by omega
          obtain ⟨a, ha⟩ : ∃ a, p2.assumptions.get? i.toNat = some a := by
            rw [List.get?_eq_get hnlt]
            exact ⟨_, rfl⟩
          refine ⟨i.toNat, a, hn.symm, ha, ?_⟩
          have hmlg := mix_loop_get p2.assumptions hnd p1.assumptions [] 0
            i.toNat a ha
          rw [show (0 : Int) + (i.toNat : Int) = i from by omega] at hmlg
          rw [hg] at hmlg
          have hj := Option.some.inj hmlg
          rw [h2, ← hst, hj]
      · intro k r idcs hk
        obtain ⟨st', h1, h2⟩ := hget2 k _ hk
        unfold mixer_step at h1
        simp only [Option.some.injEq] at h1
        rw [h2, ← h1]
      · intro k j b hk
        obtain ⟨st', h1, h2⟩ := hget2 k _ hk
        unfold mixer_step at h1
        simp only [Option.some.injEq] at h1
        rw [h2, ← h1]
  · cases h

/-- C5 counterexample: with `p1c5` (one assumption, one step) and `p2c5`, the
mixed `MP` premise indices are `[1, 2]` — the original `[0, 1]` incremented by
`len(p1.steps) = 1` — not `[2, 3]` as the claimed offset
`len(p1.assumptions) + len(p1.steps) = 2` would give. -/
theorem mixer_pad_counterexample :
    proof_mixer p1c5 p2c5 = some (mix5_assumptions, mix5_steps) ∧
      mix5_steps.get? 3 = some (.ruleApp mp_rule [1, 2]) ∧
      p1c5.assumptions.length + p1c5.steps.length = 2 ∧
      mix5_steps.get? 3 ≠ some (.ruleApp mp_rule [0 + 2, 1 + 2]) := by
  refine ⟨by decide, by decide, by decide, by decide⟩

/-- Witness for C5 (amended) at the concrete pair `p1c5`, `p2c5`. -/
theorem mixer_reindexing_witness :
    p2c5.assumptions.Nodup ∧
    proof_mixer p1c5 p2c5 = some (mix5_assumptions, mix5_steps) ∧
    (mix5_assumptions = p1c5.assumptions ++
        p2c5.assumptions.filter (fun a => decide (a ∉ p1c5.assumptions)) ∧
      mix5_steps.take p1c5.steps.length = p1c5.steps ∧
      (∀ k i, p2c5.steps.get? k = some (.ass i) →
        ∃ (n : Nat) (a : Formula), i = (n : Int) ∧
          p2c5.assumptions.get? n = some a ∧
          mix5_steps.get? (p1c5.steps.length + k) =
            some (.ass ((list_index mix5_assumptions a : Nat) : Int))) ∧
      (∀ k r idcs, p2c5.steps.get? k = some (.ruleApp r idcs) →
        mix5_steps.get? (p1c5.steps.length + k) =
          some (.ruleApp r (idcs.map (· + (p1c5.steps.length : Int))))) ∧
      (∀ k j b, p2c5.steps.get? k = some (.axS j b) →
        mix5_steps.get? (p1c5.steps.length + k) = some (.axS j b))) :=
  ⟨by decide, by decide,
    mixer_reindexing p1c5 p2c5 mix5_assumptions mix5_steps (by decide)
      (by decide)⟩

end PropCalc
